import Mathlib

/-!
# A verification development for `hadithdiff.py`

The program under study is a single Python class, `HadithDiffer`, that
compares two versions of a Hadith text: each raw text is cleaned
(punctuation replaced by spaces, HTML markup stripped, whitespace
collapsed, optionally diacritics removed) and the two cleaned character
sequences are fed to `difflib.SequenceMatcher(None, a, b).ratio()`.

Strings are modelled as `List Char`; Python's float ratio is modelled
exactly as a rational number (only `=`/`≠` of exactly representable
values appear in the statements, so no rounding questions arise).
Methods that can raise are modelled in `Except`; the one exception the
source can raise is modelled by `HadithError.configurationError`.

Two external collaborators appear:

* `difflib.SequenceMatcher` is the Python standard library; its exact
  algorithm (position index over `b`, popular-entry deletion under the
  default `autojunk=True`, longest-match search with the extension
  loops, the divide-and-conquer over matching blocks, and the final
  `2*M/T` ratio) is embedded faithfully below, specialised to the
  actual call `SequenceMatcher(None, text1, text2)` — so `isjunk` is
  `None` and the junk set `bjunk` is empty, which makes the two
  junk-extension loops of `find_longest_match` no-ops; they are
  therefore omitted.
* `BeautifulSoup(...).text` (markup stripping) is not part of the
  repository and is treated by the specification as a black-box
  collaborator; it is modelled from the spec's contract
  (`stripMarkup` below).
-/

namespace HadithDiff

/-! ## Normalizer: the fixed punctuation set (from `_clean_up`) -/

/-- The punctuation characters built in `_clean_up` (source lines 73–90):
fifteen code points, each built there with `chr(int('....', 16))`. -/
def punctuations : List Char :=
  [Char.ofNat 0x060C,  -- ARABIC COMMA
   Char.ofNat 0x060D,  -- ARABIC DATE SEPARATOR
   Char.ofNat 0x060E,  -- ARABIC POETIC VERSE SIGN
   Char.ofNat 0x060F,  -- ARABIC SIGN MISRA
   Char.ofNat 0x061B,  -- ARABIC SEMICOLON
   Char.ofNat 0x061E,  -- ARABIC TRIPLE DOT PUNCTUATION MARK
   Char.ofNat 0x061F,  -- ARABIC QUESTION MARK
   Char.ofNat 0x066D,  -- ARABIC FIVE POINTED STAR
   Char.ofNat 0x06D4,  -- ARABIC FULL STOP
   Char.ofNat 0x06DD,  -- ARABIC END OF AYAH
   Char.ofNat 0x06DE,  -- ARABIC START OF RUB EL HIZB
   Char.ofNat 0x06E9,  -- ARABIC PLACE OF SAJDAH
   Char.ofNat 0x06FD,  -- ARABIC SIGN SINDHI AMPERSAND
   Char.ofNat 0xFD3E,  -- ARABIC ORNATE LEFT PARENTHESIS
   Char.ofNat 0xFD3F]  -- ARABIC ORNATE RIGHT PARENTHESIS

/-- `re.sub('[' + punctuations + ']', ' ', hadith_text)` (source line 93):
every occurrence of a character of the class is replaced by one space,
every other character is untouched. -/
def removePunctuation (s : List Char) : List Char :=
  s.map (fun c => if c ∈ punctuations then ' ' else c)

/-! ## Normalizer: markup stripping (spec-modelled collaborator) -/

/-- A character that can begin a tag name right after `<`: an ASCII
letter, or `/` for a closing tag. `<3` is therefore plain text. -/
def tagChar (c : Char) : Bool :=
  c.isAlpha || c = '/'

/-- Does the list start with a character that opens a tag after `<`? -/
def isTagOpen : List Char → Bool
  | [] => false
  | d :: _ => tagChar d

/-- Worker for `stripMarkup`. The boolean is the parser state: `true`
while inside a `<...>` tag (skipping until the closing `>`, or to the
end of the input for an unterminated tag), `false` in text. -/
def stripGo : Bool → List Char → List Char
  | _, [] => []
  | true, c :: cs => if c = '>' then stripGo false cs else stripGo true cs
  | false, c :: cs =>
      if c = '<' ∧ isTagOpen cs then stripGo true cs
      else c :: stripGo false cs

/-- Modelled from the spec: the external "extract text content from
markup" collaborator (`BeautifulSoup(cleaned_text, 'lxml').text` in the
source is a third-party library, not code of this repository). Per the
spec's collaborator contract (§6) tags and attributes are discarded
entirely and the surrounding text content is preserved in order, so
`"a<b>c</b>d"` yields `"acd"`; per §4.1 text that merely resembles a
tag (`"<3"`) is kept as text. An unterminated tag swallows the rest of
the input, matching lxml's recovery (malformed-markup behaviour is
implementation-defined per the spec's Open Questions). -/
def stripMarkup (s : List Char) : List Char :=
  stripGo false s

/-! ## Normalizer: whitespace collapsing (from `_clean_up`) -/

/-- The code points Python's `str.split()` (no argument) splits on:
exactly the characters `c` with `c.isspace()` true. -/
def pyWhitespace : List Nat :=
  [0x09, 0x0A, 0x0B, 0x0C, 0x0D, 0x1C, 0x1D, 0x1E, 0x1F, 0x20,
   0x85, 0xA0, 0x1680, 0x2028, 0x2029, 0x202F, 0x205F, 0x3000]

/-- Python whitespace test (`str.isspace` on one character). -/
def pyIsSpace (c : Char) : Bool :=
  pyWhitespace.contains c.toNat || (0x2000 ≤ c.toNat && c.toNat ≤ 0x200A)

/-- `hadith_text.split()`: the maximal runs of non-whitespace
characters, in order; whitespace is discarded. -/
def tokens : List Char → List (List Char)
  | [] => []
  | c :: cs =>
    if pyIsSpace c then tokens cs
    else
      match cs with
      | [] => [[c]]
      | d :: _ =>
        if pyIsSpace d then [c] :: tokens cs
        else
          match tokens cs with
          | [] => [[c]]
          | t :: ts => (c :: t) :: ts

/-- `' '.join(tokens)`: the pieces separated by single spaces. -/
def joinSp : List (List Char) → List Char
  | [] => []
  | [t] => t
  | t :: ts => t ++ ' ' :: joinSp ts

/-- `' '.join(hadith_text.split())` (source line 99). -/
def collapseWhitespace (s : List Char) : List Char :=
  joinSp (tokens s)

/-- `_clean_up` (source lines 67–101): replace the punctuation set by
spaces, strip markup, collapse whitespace. -/
def _clean_up (s : List Char) : List Char :=
  collapseWhitespace (stripMarkup (removePunctuation s))

/-! ## Normalizer: diacritic removal (`_remove_diacritics`) -/

/-- Modelled from the spec: `unicodedata.normalize('NFD', ...)` is the
Unicode library's canonical decomposition; the full Unicode table is
external to the repository, so a fragment is embedded — the three
Arabic hamza/madda compositions over alef and one Latin example; every
other character is its own decomposition (which is exact for unadorned
Arabic base letters and for the combining marks themselves). -/
def nfdDecompose (c : Char) : List Char :=
  if c.toNat = 0x622 then [Char.ofNat 0x627, Char.ofNat 0x653]
  else if c.toNat = 0x623 then [Char.ofNat 0x627, Char.ofNat 0x654]
  else if c.toNat = 0x625 then [Char.ofNat 0x627, Char.ofNat 0x655]
  else if c.toNat = 0xE9 then ['e', Char.ofNat 0x301]
  else [c]

/-- Modelled from the spec: `unicodedata.category(c) == 'Mn'`
(non-spacing combining mark), restricted to the blocks relevant here —
the combining diacritical marks and the Arabic tanwin/haraka/Quranic
annotation ranges. -/
def isNonspacingMark (c : Char) : Bool :=
  (0x300 ≤ c.toNat && c.toNat ≤ 0x36F) ||
  (0x610 ≤ c.toNat && c.toNat ≤ 0x61A) ||
  (0x64B ≤ c.toNat && c.toNat ≤ 0x65F) ||
  c.toNat = 0x670 ||
  (0x6D6 ≤ c.toNat && c.toNat ≤ 0x6DC) ||
  (0x6DF ≤ c.toNat && c.toNat ≤ 0x6E4) ||
  (0x6E7 ≤ c.toNat && c.toNat ≤ 0x6E8) ||
  (0x6EA ≤ c.toNat && c.toNat ≤ 0x6ED)

/-- `_remove_diacritics` (source lines 103–113): decompose, then drop
every non-spacing mark, keeping the rest in order. -/
def _remove_diacritics (s : List Char) : List Char :=
  ((s.map nfdDecompose).flatten).filter (fun c => !(isNonspacingMark c))

/-! ## `difflib.SequenceMatcher` (the Python standard library)

Embedded from CPython's `Lib/difflib.py`, specialised to the call
`SequenceMatcher(None, text1, text2).ratio()` made on source line
64–65: `isjunk` is `None`, so `bjunk` is empty and only the popular
("autojunk") filtering of `__chain_b` is live. -/

/-- The ascending positions at which `c` occurs in `b`, starting the
count at `i` — the list `b2j[c]` that `__chain_b` builds. -/
def positionsOfAux (c : Char) : List Char → Nat → List Nat
  | [], _ => []
  | d :: ds, i =>
    if d = c then i :: positionsOfAux c ds (i + 1)
    else positionsOfAux c ds (i + 1)

/-- All positions of `c` in `b`, ascending. -/
def positionsOf (b : List Char) (c : Char) : List Nat :=
  positionsOfAux c b 0

/-- `b2j` without autojunk: every element is significant. -/
def b2jRef (b : List Char) (c : Char) : List Nat :=
  positionsOf b c

/-- `b2j` as `__chain_b` leaves it with the default `autojunk=True`:
when `len(b) >= 200`, every element occurring more than
`len(b) // 100 + 1` times is "popular" and is deleted from the index,
so lookups for it find nothing. -/
def b2jAuto (b : List Char) (c : Char) : List Nat :=
  if 200 ≤ b.length ∧ b.length / 100 + 1 < (positionsOf b c).length then []
  else positionsOf b c

/-- The running best match of `find_longest_match`:
`besti, bestj, bestsize`. -/
structure Match3 where
  besti : Nat
  bestj : Nat
  bestsize : Nat
  deriving DecidableEq, Repr

/-- `k = j2len.get(j-1, 0) + 1`: the length of the chain extended to
position `j` of `b`, read from the dictionary of the previous row
(total with default `0`; Python's lookup at `j-1 = -1` also yields the
default, hence the guard at `j = 0`). -/
def kOf (j2len : Nat → Nat) (j : Nat) : Nat :=
  (if j = 0 then 0 else j2len (j - 1)) + 1

/-- The inner loop of `find_longest_match` over `b2j.get(a[i])`:
`j < blo` is `continue`, `j >= bhi` is `break` (the positions are
ascending); otherwise `k = j2len.get(j-1, 0) + 1` is recorded in the
fresh dictionary (`nj`) and the best triple is updated when `k`
strictly exceeds it. `j2len` is the dictionary of the previous `i`
and is only read. -/
def innerLoop (i blo bhi : Nat) (j2len : Nat → Nat) :
    List Nat → (Nat → Nat) → Nat → Nat → Nat → ((Nat → Nat) × Nat × Nat × Nat)
  | [], nj, besti, bestj, bestsize => (nj, besti, bestj, bestsize)
  | j :: js, nj, besti, bestj, bestsize =>
    if j < blo then innerLoop i blo bhi j2len js nj besti bestj bestsize
    else if bhi ≤ j then (nj, besti, bestj, bestsize)
    else
      if bestsize < kOf j2len j then
        innerLoop i blo bhi j2len js
          (fun j2 => if j2 = j then kOf j2len j else nj j2)
          (i + 1 - kOf j2len j) (j + 1 - kOf j2len j) (kOf j2len j)
      else
        innerLoop i blo bhi j2len js
          (fun j2 => if j2 = j then kOf j2len j else nj j2)
          besti bestj bestsize

/-- The outer loop of `find_longest_match` over
`for i in range(alo, ahi)`, carrying the `j2len` dictionary (a total
function with default `0`, matching `dict.get(·, 0)`) and the three
best-match variables. The list holds the pairs `(i, a[i])`. -/
def outerLoop (b2j : Char → List Nat) (blo bhi : Nat) :
    List (Nat × Char) → (Nat → Nat) → Nat → Nat → Nat → Match3
  | [], _, besti, bestj, bestsize => ⟨besti, bestj, bestsize⟩
  | (i, c) :: rest, j2len, besti, bestj, bestsize =>
    match innerLoop i blo bhi j2len (b2j c) (fun _ => 0) besti bestj bestsize with
    | (nj, bi, bj, bs) => outerLoop b2j blo bhi rest nj bi bj bs

/-- The first extension loop of `find_longest_match`: while the match
can be extended one character to the left inside the window and the
characters agree, extend it. (`bjunk` is empty here, so the "non-junk"
guard is vacuous and the later junk-extension loops never run.) The
fuel bounds the iteration count; `find_longest_match` passes enough. -/
def extendBack (a b : List Char) (alo blo : Nat) : Nat → Match3 → Match3
  | 0, m => m
  | fuel + 1, m =>
    if alo < m.besti ∧ blo < m.bestj then
      match a.get? (m.besti - 1), b.get? (m.bestj - 1) with
      | some x, some y =>
        if x = y then
          extendBack a b alo blo fuel ⟨m.besti - 1, m.bestj - 1, m.bestsize + 1⟩
        else m
      | _, _ => m
    else m

/-- The second extension loop of `find_longest_match`: extend to the
right while inside the window and the characters agree. -/
def extendFwd (a b : List Char) (ahi bhi : Nat) : Nat → Match3 → Match3
  | 0, m => m
  | fuel + 1, m =>
    if m.besti + m.bestsize < ahi ∧ m.bestj + m.bestsize < bhi then
      match a.get? (m.besti + m.bestsize), b.get? (m.bestj + m.bestsize) with
      | some x, some y =>
        if x = y then extendFwd a b ahi bhi fuel ⟨m.besti, m.bestj, m.bestsize + 1⟩
        else m
      | _, _ => m
    else m

/-- `find_longest_match(alo, ahi, blo, bhi)` with the given `b2j`
index: the dictionary pass over `i in range(alo, ahi)` starting from
`(alo, blo, 0)`, then the two extension loops. -/
def find_longest_match (a b : List Char) (b2j : Char → List Nat)
    (alo ahi blo bhi : Nat) : Match3 :=
  let best1 := outerLoop b2j blo bhi ((a.enum.drop alo).take (ahi - alo))
    (fun _ => 0) alo blo 0
  let best2 := extendBack a b alo blo (best1.besti - alo) best1
  extendFwd a b ahi bhi (ahi - (best2.besti + best2.bestsize)) best2

/-- The sum of the sizes of all matching blocks of a window — what
`ratio()` takes from `get_matching_blocks()`: find the longest match;
if it is empty the window contributes nothing, otherwise recurse into
the region strictly before it and the region strictly after it exactly
when those regions are non-empty on both sides (the two `queue.append`
guards). The fuel dominates the recursion depth; the callers pass
`len(a) + len(b) + 1`, more than enough since every recursive window is
strictly smaller. -/
def matchesTotal (a b : List Char) (b2j : Char → List Nat) :
    Nat → Nat → Nat → Nat → Nat → Nat
  | 0, _, _, _, _ => 0
  | fuel + 1, alo, ahi, blo, bhi =>
    let m := find_longest_match a b b2j alo ahi blo bhi
    if m.bestsize = 0 then 0
    else
      m.bestsize
      + (if alo < m.besti ∧ blo < m.bestj then
           matchesTotal a b b2j fuel alo m.besti blo m.bestj
         else 0)
      + (if m.besti + m.bestsize < ahi ∧ m.bestj + m.bestsize < bhi then
           matchesTotal a b b2j fuel (m.besti + m.bestsize) ahi
             (m.bestj + m.bestsize) bhi
         else 0)

/-- `sum(triple[-1] for triple in get_matching_blocks())` over the full
windows, for a given way of building the `b2j` index from `b`. -/
def totalMatchedChars (mkb2j : List Char → Char → List Nat)
    (a b : List Char) : Nat :=
  matchesTotal a b (mkb2j b) (a.length + b.length + 1) 0 a.length 0 b.length

/-- `_calculate_ratio(matches, len(a) + len(b))`: `2*M/T`, and `1.0`
when both sequences are empty. The quotient is written `mkRat (2*M) T`,
which is the rational `2*M / T` (`ratioWith_eq_div` below) in a form
the kernel can evaluate. -/
def ratioWith (mkb2j : List Char → Char → List Nat) (a b : List Char) : ℚ :=
  if a.length + b.length = 0 then 1
  else mkRat (2 * (totalMatchedChars mkb2j a b : Int)) (a.length + b.length)

/-- `SequenceMatcher(None, a, b).ratio()` exactly as the source calls
it: the default `autojunk=True` index. -/
def sm_ratio (a b : List Char) : ℚ :=
  ratioWith b2jAuto a b

/-- Modelled from the spec (§4.2): the Ratcliff/Obershelp reference
ratio with **no** autojunk heuristics — the same longest-matching-block
recursion, tie-broken by smallest start in `a` then in `b`, with every
element of `b` kept significant in the index. -/
def referenceRatio (a b : List Char) : ℚ :=
  ratioWith b2jRef a b

/-! ## The comparison session (`HadithDiffer`) -/

/-- The error taxonomy of the spec (§7). The source raises a bare
`Exception` with a descriptive message; the spec names that category
`ConfigurationError`. -/
inductive HadithError where
  | configurationError : String → HadithError
  deriving DecidableEq

/-- The five fields of the class, with the class-level defaults
(`''` four times and `False`) captured by `hadithDiffer0`. -/
structure HadithDiffer where
  _hadith_text1 : List Char
  _hadith_text1_cleaned : List Char
  _hadith_text2 : List Char
  _hadith_text2_cleaned : List Char
  _ignore_diacritics : Bool
  deriving DecidableEq, Repr

/-- A freshly constructed `HadithDiffer()`: the class-level field
defaults. -/
def hadithDiffer0 : HadithDiffer :=
  ⟨[], [], [], [], false⟩

/-- `set_hadith_texts` (source lines 36–43): store both raw texts and
derive both cleaned forms at once; no validation of any kind. -/
def set_hadith_texts (hd : HadithDiffer) (t1 t2 : List Char) : HadithDiffer :=
  ⟨t1, _clean_up t1, t2, _clean_up t2, hd._ignore_diacritics⟩

/-- `set_hadith_texts` viewed in the raise-or-return monad in which the
other methods live: the body contains no `raise` and no call that can
raise, so it always succeeds. -/
def set_hadith_textsE (hd : HadithDiffer) (t1 t2 : List Char) :
    Except HadithError HadithDiffer :=
  Except.ok (set_hadith_texts hd t1 t2)

/-- `ignore_diacritics` (source lines 45–47). -/
def ignore_diacritics (hd : HadithDiffer) (ig : Bool) : HadithDiffer :=
  ⟨hd._hadith_text1, hd._hadith_text1_cleaned,
   hd._hadith_text2, hd._hadith_text2_cleaned, ig⟩

/-- `compare` (source lines 49–65): raise when either **raw** text is
falsy (the empty string); otherwise take the stored cleaned texts,
strip diacritics from both when the policy is set, and return
`SequenceMatcher(None, text1, text2).ratio()`. -/
def compare (hd : HadithDiffer) : Except HadithError ℚ :=
  if hd._hadith_text1 = [] ∨ hd._hadith_text2 = [] then
    Except.error (HadithError.configurationError
      "Hadith texts to compare not set. Use setHadithTexts() to set the texts...")
  else
    Except.ok (sm_ratio
      (if hd._ignore_diacritics then _remove_diacritics hd._hadith_text1_cleaned
       else hd._hadith_text1_cleaned)
      (if hd._ignore_diacritics then _remove_diacritics hd._hadith_text2_cleaned
       else hd._hadith_text2_cleaned))

/-- Equality of raise-or-return results is decidable, so the concrete
counterexamples below can be checked by evaluation. -/
instance {ε α : Type} [DecidableEq ε] [DecidableEq α] : DecidableEq (Except ε α)
  | Except.error x, Except.error y =>
    if h : x = y then isTrue (by rw [h]) else isFalse (by intro c; cases c; exact h rfl)
  | Except.error _, Except.ok _ => isFalse (by intro c; cases c)
  | Except.ok _, Except.error _ => isFalse (by intro c; cases c)
  | Except.ok x, Except.ok y =>
    if h : x = y then isTrue (by rw [h]) else isFalse (by intro c; cases c; exact h rfl)

/-! ## Bookkeeping for the diagonal analysis of `find_longest_match`

`dv g s p` is the length of the longest suffix of `s.take (p+1)` all of
whose characters are present in the index `g`. It is the value the
`j2len` dictionary holds on the diagonal when both sequences are `s`,
and drives the proof that the matcher reports a diagonal best match for
identical sequences. -/

/-- Is a character present in the `b2j` index at all? -/
def inIdx (g : Char → List Nat) (c : Char) : Bool :=
  !(g c).isEmpty

/-- Length of the in-index character run of `s` ending at position `p`
(zero when `p` is out of range or `s` holds an unindexed character
there). -/
def dv (g : Char → List Nat) (s : List Char) : Nat → Nat
  | 0 =>
    match s.get? 0 with
    | some c => if inIdx g c then 1 else 0
    | none => 0
  | p + 1 =>
    match s.get? (p + 1) with
    | some c => if inIdx g c then dv g s p + 1 else 0
    | none => 0

/-- `dv` one row earlier: `0` at row `0`. -/
def dvBelow (g : Char → List Nat) (s : List Char) : Nat → Nat
  | 0 => 0
  | p + 1 => dv g s p

/-! ## Concrete inputs used by counterexamples and witnesses -/

/-- Four times the letter `x`: every character popular once paired with
`junkText2`. -/
def junkText1 : List Char :=
  ['x', 'x', 'x', 'x']

/-- 196 letters cycling through `a`–`w` followed by four `x`: length
200, so the autojunk threshold applies, and the `x` block is far from
position 0 on this side. -/
def junkText2 : List Char :=
  (List.range 196).map (fun k => Char.ofNat (97 + k % 23)) ++ List.replicate 4 'x'

end HadithDiff

namespace HadithDiff

/-! ## Small facts about the session API -/

/-- The branch of `_calculate_ratio` for sequences of nonzero total
length is the quotient `2*M/T`. -/
theorem ratioWith_eq_div (mkb2j : List Char → Char → List Nat) (a b : List Char)
    (h : a.length + b.length ≠ 0) :
    ratioWith mkb2j a b =
      2 * (totalMatchedChars mkb2j a b : ℚ) / ((a.length : ℚ) + (b.length : ℚ)) := by
  simp only [ratioWith, h, if_false, Rat.mkRat_eq_div]
  push_cast
  ring

theorem set_hadith_texts_fields (hd : HadithDiffer) (t1 t2 : List Char) :
    (set_hadith_texts hd t1 t2)._hadith_text1 = t1
    ∧ (set_hadith_texts hd t1 t2)._hadith_text1_cleaned = _clean_up t1
    ∧ (set_hadith_texts hd t1 t2)._hadith_text2 = t2
    ∧ (set_hadith_texts hd t1 t2)._hadith_text2_cleaned = _clean_up t2
    ∧ (set_hadith_texts hd t1 t2)._ignore_diacritics = hd._ignore_diacritics :=
  ⟨rfl, rfl, rfl, rfl, rfl⟩

/-! ## Claim C2 — `compare` fails exactly on unset/empty raw texts -/

/-- C2: `compare()` fails with a `ConfigurationError` if and only if the
texts were never set or either supplied raw text is the empty string
(a fresh session holds the empty string in both slots, so "never set"
is the same state); otherwise it returns the similarity ratio of the
two (optionally diacritic-stripped) cleaned texts; and the error is
recoverable: after setting two non-empty texts, `compare` succeeds. -/
theorem compare_error_iff_unset (hd : HadithDiffer) :
    ((∃ e, compare hd = Except.error e) ↔
      hd._hadith_text1 = [] ∨ hd._hadith_text2 = [])
    ∧ (hd._hadith_text1 ≠ [] → hd._hadith_text2 ≠ [] →
        compare hd = Except.ok (sm_ratio
          (if hd._ignore_diacritics then _remove_diacritics hd._hadith_text1_cleaned
           else hd._hadith_text1_cleaned)
          (if hd._ignore_diacritics then _remove_diacritics hd._hadith_text2_cleaned
           else hd._hadith_text2_cleaned)))
    ∧ (∀ t1 t2 : List Char, t1 ≠ [] → t2 ≠ [] →
        ∃ q, compare (set_hadith_texts hd t1 t2) = Except.ok q) := by
  refine ⟨?_, ?_, ?_⟩
  · by_cases h : hd._hadith_text1 = [] ∨ hd._hadith_text2 = [] <;>
      simp [compare, h]
  · intro h1 h2
    have h : ¬ (hd._hadith_text1 = [] ∨ hd._hadith_text2 = []) := by
      simp [h1, h2]
    simp [compare, h]
  · intro t1 t2 h1 h2
    have h : ¬ (t1 = [] ∨ t2 = []) := by simp [h1, h2]
    refine ⟨sm_ratio
      (if hd._ignore_diacritics then _remove_diacritics (_clean_up t1) else _clean_up t1)
      (if hd._ignore_diacritics then _remove_diacritics (_clean_up t2) else _clean_up t2), ?_⟩
    simp [compare, set_hadith_texts, h]

theorem compare_error_iff_unset_witness :
    ∃ q, compare (set_hadith_texts hadithDiffer0 ['a'] ['b']) = Except.ok q :=
  (compare_error_iff_unset hadithDiffer0).2.2 ['a'] ['b'] (by decide) (by decide)

/-! ## Claim C3 — `set_hadith_texts` does not validate -/

/-- C3 counterexample: called with an empty first argument,
`set_hadith_texts` does **not** fail — it succeeds and stores the empty
string (the claimed `ConfigurationError` is raised only later, by
`compare`). -/
theorem set_hadith_texts_empty_succeeds :
    (set_hadith_textsE hadithDiffer0 [] ['a']).isOk = true
    ∧ (set_hadith_texts hadithDiffer0 [] ['a'])._hadith_text1 = []
    ∧ (set_hadith_texts hadithDiffer0 [] ['a'])._hadith_text2 = ['a']
    ∧ (compare (set_hadith_texts hadithDiffer0 [] ['a'])).isOk = false := by
  decide

/-- C3 amended: `setTexts(text1, text2)` never fails — for every pair of
arguments, empty or not, it stores both raw texts and immediately
derives their cleaned forms (emptiness is rejected only when
`compare()` is invoked). -/
theorem set_hadith_texts_total (hd : HadithDiffer) (t1 t2 : List Char) :
    set_hadith_textsE hd t1 t2 = Except.ok (set_hadith_texts hd t1 t2)
    ∧ (set_hadith_texts hd t1 t2)._hadith_text1 = t1
    ∧ (set_hadith_texts hd t1 t2)._hadith_text1_cleaned = _clean_up t1
    ∧ (set_hadith_texts hd t1 t2)._hadith_text2 = t2
    ∧ (set_hadith_texts hd t1 t2)._hadith_text2_cleaned = _clean_up t2 :=
  ⟨rfl, rfl, rfl, rfl, rfl⟩

/-! ## Claim C5 — the ratio is not symmetric -/

/-- C5 counterexample: swapping the two texts changes the result.
With texts `"baaa"` and `"aaba"` (plain letters, so cleaning is the
identity and no autojunk is involved), `compare` returns `1/2`, but
with the texts swapped it returns `3/4`: the greedy longest-match
tie-break (`smallest starting index in the first sequence`) selects
different block decompositions in the two directions. -/
theorem compare_not_symmetric :
    compare (set_hadith_texts hadithDiffer0 ['b', 'a', 'a', 'a'] ['a', 'a', 'b', 'a'])
      ≠ compare (set_hadith_texts hadithDiffer0 ['a', 'a', 'b', 'a'] ['b', 'a', 'a', 'a']) := by
  decide

/-- C5 amended: `compare()` is in general changed by swapping the two
texts (see the counterexample); it is unchanged whenever the two
cleaned texts are equal. -/
theorem compare_swap_eq_of_cleaned_eq (hd : HadithDiffer) (t1 t2 : List Char)
    (h : _clean_up t1 = _clean_up t2) :
    compare (set_hadith_texts hd t1 t2) = compare (set_hadith_texts hd t2 t1) := by
  by_cases h1 : t1 = [] <;> by_cases h2 : t2 = [] <;>
    simp [compare, set_hadith_texts, h1, h2, h]

theorem compare_swap_eq_of_cleaned_eq_witness :
    compare (set_hadith_texts hadithDiffer0 ['a', ' '] ['a'])
      = compare (set_hadith_texts hadithDiffer0 ['a'] ['a', ' ']) :=
  compare_swap_eq_of_cleaned_eq hadithDiffer0 ['a', ' '] ['a'] (by decide)

/-! ## Claim C6 — the punctuation set -/

/-- C6 counterexample: the fixed punctuation set does not have exactly
fourteen code points. -/
theorem punctuations_not_fourteen : punctuations.length ≠ 14 := by
  decide

/-- C6 amended: the cleaning step replaces every occurrence of any
character of a fixed punctuation set of exactly **fifteen** Unicode
code points — the named fourteen punctuation marks where "ornate
parentheses" are two code points, the left `U+FD3E` and the right
`U+FD3F` — with a single space character, and affects no other
character in that step. -/
theorem removePunctuation_pointwise (s : List Char) (i : Nat) :
    punctuations.map Char.toNat =
      [0x060C, 0x060D, 0x060E, 0x060F, 0x061B, 0x061E, 0x061F, 0x066D,
       0x06D4, 0x06DD, 0x06DE, 0x06E9, 0x06FD, 0xFD3E, 0xFD3F]
    ∧ punctuations.length = 15
    ∧ (removePunctuation s).length = s.length
    ∧ (removePunctuation s).get? i =
        (s.get? i).map (fun c => if c ∈ punctuations then ' ' else c) := by
  refine ⟨by decide, by decide, by simp [removePunctuation], ?_⟩
  simp [removePunctuation]

/-! ## Claim C8 — the final ratio formula -/

/-- C8: when the two compared sequences have total length zero the
ratio is `1`; otherwise it is twice the total matched character count
divided by the sum of the two lengths. -/
theorem sm_ratio_formula (a b : List Char) :
    (a.length + b.length = 0 → sm_ratio a b = 1)
    ∧ (a.length + b.length ≠ 0 →
        sm_ratio a b =
          2 * (totalMatchedChars b2jAuto a b : ℚ) / ((a.length : ℚ) + (b.length : ℚ))) := by
  constructor
  · intro h
    simp [sm_ratio, ratioWith, h]
  · intro h
    exact ratioWith_eq_div b2jAuto a b h

theorem sm_ratio_formula_witness : sm_ratio [] [] = 1 :=
  (sm_ratio_formula [] []).1 rfl

/-! ## Claim C10 — the precondition is on the raw texts only -/

/-- C10: the non-emptiness precondition of `compare` is checked on the
raw texts only: for non-empty raw inputs whose cleaned forms are empty
(inputs made of defined punctuation, markup and/or whitespace clean to
the empty string), `compare` does not raise, and the comparison of the
two empty cleaned sequences yields `1`. -/
theorem compare_raw_precondition (t1 t2 : List Char) (h1 : t1 ≠ []) (h2 : t2 ≠ [])
    (hc1 : _clean_up t1 = []) (hc2 : _clean_up t2 = []) :
    compare (set_hadith_texts hadithDiffer0 t1 t2) = Except.ok 1 := by
  have h : ¬ (t1 = [] ∨ t2 = []) := by simp [h1, h2]
  simp [compare, set_hadith_texts, hadithDiffer0, h, hc1, hc2]
  rfl

theorem compare_raw_precondition_witness :
    compare (set_hadith_texts hadithDiffer0 [Char.ofNat 0x060C] [' ']) = Except.ok 1 :=
  compare_raw_precondition [Char.ofNat 0x060C] [' ']
    (by decide) (by decide) (by decide) (by decide)

/-! ## Claim C1 — `compare` differs from the no-autojunk reference -/

set_option maxRecDepth 100000

set_option maxHeartbeats 1000000

/-- C1 counterexample: with raw texts `junkText1 = "xxxx"` and
`junkText2` (196 filler letters, then `"xxxx"`; cleaning is the
identity on both), the autojunk heuristic of
`SequenceMatcher(None, ..)` discards `x` — it occurs more than
`200/100 + 1` times in the 200-character second sequence — so
`compare` returns `0`, while the no-autojunk reference ratio finds the
common block `"xxxx"` and returns `2/51`. -/
theorem compare_ne_reference :
    compare (set_hadith_texts hadithDiffer0 junkText1 junkText2)
      ≠ Except.ok (referenceRatio (_clean_up junkText1) (_clean_up junkText2)) := by
  decide

/-- The autojunk index and the reference index agree whenever `b` is
shorter than the 200-element autojunk threshold. -/
theorem b2jAuto_eq_ref_of_short (b : List Char) (h : b.length < 200) :
    b2jAuto b = b2jRef b := by
  funext c
  have : ¬ (200 ≤ b.length ∧ b.length / 100 + 1 < (positionsOf b c).length) := by
    omega
  simp [b2jAuto, b2jRef, this]

/-- C1 amended: `compare()` computes `difflib`'s ratio with its default
autojunk heuristic, which treats characters occurring in more than one
percent of a second sequence of length at least 200 as insignificant
for the match search (see the counterexample); it coincides with the
no-autojunk Ratcliff/Obershelp reference ratio of the two cleaned
sequences whenever the second cleaned sequence is shorter than 200
characters. -/
theorem compare_eq_reference_of_short (t1 t2 : List Char) (h1 : t1 ≠ []) (h2 : t2 ≠ [])
    (hb : (_clean_up t2).length < 200) :
    compare (set_hadith_texts hadithDiffer0 t1 t2)
      = Except.ok (referenceRatio (_clean_up t1) (_clean_up t2)) := by
  have h : ¬ (t1 = [] ∨ t2 = []) := by simp [h1, h2]
  have e : b2jAuto (_clean_up t2) = b2jRef (_clean_up t2) :=
    b2jAuto_eq_ref_of_short _ hb
  simp [compare, set_hadith_texts, hadithDiffer0, h, sm_ratio, referenceRatio,
    ratioWith, totalMatchedChars, e]

theorem compare_eq_reference_of_short_witness :
    compare (set_hadith_texts hadithDiffer0 ['a'] ['a'])
      = Except.ok (referenceRatio (_clean_up ['a']) (_clean_up ['a'])) :=
  compare_eq_reference_of_short ['a'] ['a'] (by decide) (by decide) (by decide)

/-! ## The position index -/

theorem mem_positionsOfAux (c : Char) :
    ∀ (l : List Char) (i j : Nat),
      j ∈ positionsOfAux c l i ↔ ∃ d, j = i + d ∧ l[d]? = some c := by
  intro l
  induction l with
  | nil => simp [positionsOfAux]
  | cons x xs ih =>
    intro i j
    constructor
    · intro h
      by_cases hx : x = c
      · simp only [positionsOfAux, if_pos hx, List.mem_cons] at h
        rcases h with rfl | h
        · exact ⟨0, by omega, by simp [hx]⟩
        · obtain ⟨d, rfl, hd⟩ := (ih (i + 1) j).mp h
          exact ⟨d + 1, by omega, by simpa using hd⟩
      · simp only [positionsOfAux, if_neg hx] at h
        obtain ⟨d, rfl, hd⟩ := (ih (i + 1) j).mp h
        exact ⟨d + 1, by omega, by simpa using hd⟩
    · rintro ⟨d, rfl, hd⟩
      cases d with
      | zero =>
        simp only [List.getElem?_cons_zero, Option.some.injEq] at hd
        subst hd
        simp [positionsOfAux]
      | succ d =>
        simp only [List.getElem?_cons_succ] at hd
        have hmem : i + 1 + d ∈ positionsOfAux c xs (i + 1) :=
          (ih (i + 1) (i + 1 + d)).mpr ⟨d, rfl, hd⟩
        have hmem2 : i + (d + 1) ∈ positionsOfAux c xs (i + 1) := by
          have he : i + 1 + d = i + (d + 1) := by omega
          rwa [he] at hmem
        by_cases hx : x = c
        · simp only [positionsOfAux, if_pos hx, List.mem_cons]
          exact Or.inr hmem2
        · simpa only [positionsOfAux, if_neg hx] using hmem2

theorem mem_positionsOf {s : List Char} {c : Char} {j : Nat} :
    j ∈ positionsOf s c ↔ s[j]? = some c := by
  unfold positionsOf
  rw [mem_positionsOfAux]
  constructor
  · rintro ⟨d, rfl, hd⟩
    simpa using hd
  · intro h
    exact ⟨j, by omega, h⟩

theorem pairwise_positionsOfAux (c : Char) :
    ∀ (l : List Char) (i : Nat), List.Pairwise (· < ·) (positionsOfAux c l i) := by
  intro l
  induction l with
  | nil => intro i; simp [positionsOfAux]
  | cons x xs ih =>
    intro i
    by_cases hx : x = c
    · simp only [positionsOfAux, if_pos hx]
      refine List.pairwise_cons.mpr ⟨?_, ih (i + 1)⟩
      intro j hj
      obtain ⟨d, rfl, _⟩ := (mem_positionsOfAux c xs (i + 1) j).mp hj
      omega
    · simpa only [positionsOfAux, if_neg hx] using ih (i + 1)

theorem pairwise_positionsOf (s : List Char) (c : Char) :
    List.Pairwise (· < ·) (positionsOf s c) :=
  pairwise_positionsOfAux c s 0

theorem b2jAuto_sound {b : List Char} {c : Char} {j : Nat}
    (h : j ∈ b2jAuto b c) : b[j]? = some c := by
  unfold b2jAuto at h
  split at h
  · simp at h
  · exact mem_positionsOf.mp h

theorem b2jAuto_cases (b : List Char) (c : Char) :
    b2jAuto b c = [] ∨ b2jAuto b c = positionsOf b c := by
  unfold b2jAuto
  split
  · exact Or.inl rfl
  · exact Or.inr rfl

theorem b2jAuto_pairwise (b : List Char) (c : Char) :
    List.Pairwise (· < ·) (b2jAuto b c) := by
  rcases b2jAuto_cases b c with h | h <;> rw [h]
  · simp
  · exact pairwise_positionsOf b c

/-! ## Facts about `dv` -/

theorem dv_get {g : Char → List Nat} {s : List Char} {p : Nat} {c : Char}
    (h : s[p]? = some c) :
    dv g s p = if inIdx g c then dvBelow g s p + 1 else 0 := by
  cases p <;> simp [dv, dvBelow, h]

theorem dv_le (g : Char → List Nat) (s : List Char) :
    ∀ p, dv g s p ≤ p + 1 := by
  intro p
  induction p with
  | zero =>
    cases h : s[0]?
    · simp [dv, h]
    · rw [dv_get h]
      simp only [dvBelow]
      split
      all_goals omega
  | succ p ih =>
    cases h : s[p + 1]?
    · simp [dv, h]
    · rw [dv_get h]
      simp only [dvBelow]
      split
      all_goals omega

/-! ## The extension loops on identical sequences -/

theorem extendBack_self (s : List Char) :
    ∀ (fuel d B : Nat), d ≤ fuel → d + B ≤ s.length →
      extendBack s s 0 0 fuel ⟨d, d, B⟩ = ⟨0, 0, d + B⟩ := by
  intro fuel
  induction fuel with
  | zero =>
    intro d B hd _
    have : d = 0 := by omega
    subst this
    simp [extendBack]
  | succ fuel ih =>
    intro d B hd hsum
    cases d with
    | zero => simp [extendBack]
    | succ d' =>
      have hlt : d' < s.length := by omega
      have hx : s[d']? = some s[d'] := List.getElem?_eq_getElem hlt
      have step : extendBack s s 0 0 (fuel + 1) ⟨d' + 1, d' + 1, B⟩
          = extendBack s s 0 0 fuel ⟨d', d', B + 1⟩ := by
        simp [extendBack, hx]
      rw [step, ih d' (B + 1) (by omega) (by omega)]
      congr 1
      omega

theorem extendFwd_self (s : List Char) :
    ∀ (fuel sz : Nat), sz + fuel = s.length →
      extendFwd s s s.length s.length fuel ⟨0, 0, sz⟩ = ⟨0, 0, s.length⟩ := by
  intro fuel
  induction fuel with
  | zero =>
    intro sz h
    have : sz = s.length := by omega
    subst this
    rw [extendFwd]
  | succ fuel ih =>
    intro sz h
    have hlt : sz < s.length := by omega
    have hx : s[sz]? = some s[sz] := List.getElem?_eq_getElem hlt
    have step : extendFwd s s s.length s.length (fuel + 1) ⟨0, 0, sz⟩
        = extendFwd s s s.length s.length fuel ⟨0, 0, sz + 1⟩ := by
      simp [extendFwd, hx, hlt]
    rw [step]
    exact ih (sz + 1) (by omega)

/-! ## The dictionary pass on identical sequences stays diagonal

When both sequences are `s` and the index `g` is all-or-nothing per
character, every chain value of row `i` is bounded by `dv` of its
column and by `dv i`, the diagonal entry is `dv i` exactly, and the
running best — diagonal on entry and dominating `dv` at every earlier
row — can only be replaced by the diagonal candidate of the current
row. Hence the best triple leaving the row is again diagonal. -/

theorem innerLoop_diag (s : List Char) (g : Char → List Nat) (old : Nat → Nat) (i : Nat) :
    ∀ (js : List Nat) (d B : Nat) (nj : Nat → Nat),
      (∀ j ∈ js, j < s.length) →
      List.Pairwise (· < ·) js →
      (∀ j ∈ js, kOf old j ≤ dv g s j) →
      (∀ j ∈ js, kOf old j ≤ dv g s i) →
      (∀ j ∈ js, j < i → kOf old j ≤ B) →
      (i ∈ js → kOf old i = dv g s i) →
      (i ∈ js ∨ dv g s i ≤ B) →
      d + B ≤ i + 1 →
      (∀ j, nj j ≤ dv g s i) →
      (∀ j, nj j ≤ dv g s j) →
      ∃ d2 B2 nj2,
        innerLoop i 0 s.length old js nj d d B = (nj2, d2, d2, B2)
        ∧ B ≤ B2
        ∧ d2 + B2 ≤ i + 1
        ∧ dv g s i ≤ B2
        ∧ (∀ j, nj2 j ≤ dv g s i)
        ∧ (∀ j, nj2 j ≤ dv g s j)
        ∧ (i ∈ js → nj2 i = dv g s i)
        ∧ (i ∉ js → nj2 i = nj i) := by
  intro js
  induction js with
  | nil =>
    intro d B nj hw hsort hK1 hK2 hc hf he hdB hnj1 hnj2
    refine ⟨d, B, nj, rfl, le_refl B, hdB, ?_, hnj1, hnj2, by simp, fun _ => rfl⟩
    rcases he with h | h
    · simp at h
    · exact h
  | cons j js ih =>
    intro d B nj hw hsort hK1 hK2 hc hf he hdB hnj1 hnj2
    have hjlen : j < s.length := hw j (List.mem_cons_self j js)
    have hjtail : ∀ x ∈ js, j < x := (List.pairwise_cons.mp hsort).1
    have hnotin : j ∉ js := fun hj => by have := hjtail j hj; omega
    rw [innerLoop, if_neg (Nat.not_lt_zero j), if_neg (by omega : ¬ s.length ≤ j)]
    have hheadK1 : kOf old j ≤ dv g s j := hK1 j (List.mem_cons_self j js)
    have hheadK2 : kOf old j ≤ dv g s i := hK2 j (List.mem_cons_self j js)
    by_cases hfire : B < kOf old j
    · -- the row fires: this must be the diagonal position
      have hji : j = i := by
        rcases Nat.lt_trichotomy j i with hlt | heq | hgt
        · have := hc j (List.mem_cons_self j js) hlt
          omega
        · exact heq
        · exfalso
          rcases he with hi | hB
          · rcases List.mem_cons.mp hi with rfl | hi2
            · omega
            · have := hjtail i hi2
              omega
          · omega
      subst hji
      have hkdv : kOf old j = dv g s j := hf (List.mem_cons_self j js)
      have hkle : kOf old j ≤ j + 1 := by
        rw [hkdv]
        exact dv_le g s j
      rw [if_pos hfire]
      obtain ⟨d2, B2, nj2, heq, hB2ge, hd2, hdv2, hn1, hn2, hn3, hn4⟩ :=
        ih (j + 1 - kOf old j) (kOf old j)
          (fun j2 => if j2 = j then kOf old j else nj j2)
          (fun x hx => hw x (List.mem_cons_of_mem j hx))
          (List.pairwise_cons.mp hsort).2
          (fun x hx => hK1 x (List.mem_cons_of_mem j hx))
          (fun x hx => hK2 x (List.mem_cons_of_mem j hx))
          (fun x hx hxi => le_trans (hK2 x (List.mem_cons_of_mem j hx)) (le_of_eq hkdv.symm))
          (fun hj => absurd hj hnotin)
          (Or.inr (le_of_eq hkdv.symm))
          (by omega)
          (fun x => by
            by_cases hxj : x = j
            · simpa [hxj] using le_of_eq hkdv
            · simpa [hxj] using hnj1 x)
          (fun x => by
            by_cases hxj : x = j
            · simpa [hxj] using le_of_eq hkdv
            · simpa [hxj] using hnj2 x)
      refine ⟨d2, B2, nj2, heq, by omega, hd2, hdv2, hn1, hn2, fun _ => ?_, ?_⟩
      · rw [hn4 hnotin]
        simp [hkdv]
      · intro hni
        exact absurd (List.mem_cons_self j js) hni
    · -- no fire: the best triple is unchanged
      rw [if_neg hfire]
      by_cases hji : j = i
      · subst hji
        have hkdv : kOf old j = dv g s j := hf (List.mem_cons_self j js)
        have hdvB : dv g s j ≤ B := by omega
        obtain ⟨d2, B2, nj2, heq, hB2ge, hd2, hdv2, hn1, hn2, hn3, hn4⟩ :=
          ih d B (fun j2 => if j2 = j then kOf old j else nj j2)
            (fun x hx => hw x (List.mem_cons_of_mem j hx))
            (List.pairwise_cons.mp hsort).2
            (fun x hx => hK1 x (List.mem_cons_of_mem j hx))
            (fun x hx => hK2 x (List.mem_cons_of_mem j hx))
            (fun x hx hxi => le_trans (hK2 x (List.mem_cons_of_mem j hx)) hdvB)
            (fun hj => absurd hj hnotin)
            (Or.inr hdvB)
            hdB
            (fun x => by
              by_cases hxj : x = j
              · simpa [hxj] using hheadK2
              · simpa [hxj] using hnj1 x)
            (fun x => by
              by_cases hxj : x = j
              · simpa [hxj] using hheadK1
              · simpa [hxj] using hnj2 x)
        refine ⟨d2, B2, nj2, heq, hB2ge, hd2, hdv2, hn1, hn2, fun _ => ?_, ?_⟩
        · rw [hn4 hnotin]
          simp [hkdv]
        · intro hni
          exact absurd (List.mem_cons_self j js) hni
      · -- an off-diagonal, non-firing position
        have he2 : i ∈ js ∨ dv g s i ≤ B := by
          rcases he with hi | hB
          · rcases List.mem_cons.mp hi with rfl | hi2
            · exact absurd rfl hji
            · exact Or.inl hi2
          · exact Or.inr hB
        obtain ⟨d2, B2, nj2, heq, hB2ge, hd2, hdv2, hn1, hn2, hn3, hn4⟩ :=
          ih d B (fun j2 => if j2 = j then kOf old j else nj j2)
            (fun x hx => hw x (List.mem_cons_of_mem j hx))
            (List.pairwise_cons.mp hsort).2
            (fun x hx => hK1 x (List.mem_cons_of_mem j hx))
            (fun x hx => hK2 x (List.mem_cons_of_mem j hx))
            (fun x hx hxi => hc x (List.mem_cons_of_mem j hx) hxi)
            (fun hj => hf (List.mem_cons_of_mem j hj))
            he2
            hdB
            (fun x => by
              by_cases hxj : x = j
              · simpa [hxj] using hheadK2
              · simpa [hxj] using hnj1 x)
            (fun x => by
              by_cases hxj : x = j
              · simpa [hxj] using hheadK1
              · simpa [hxj] using hnj2 x)
        refine ⟨d2, B2, nj2, heq, hB2ge, hd2, hdv2, hn1, hn2, ?_, ?_⟩
        · intro hi
          rcases List.mem_cons.mp hi with rfl | hi2
          · exact absurd rfl hji
          · exact hn3 hi2
        · intro hni
          have hii : i ∉ js := fun hx => hni (List.mem_cons_of_mem j hx)
          have hineq : i ≠ j := by
            intro h
            exact hni (h ▸ List.mem_cons_self j js)
          rw [hn4 hii]
          simp [hineq]

/-! ## The outer loop on identical sequences -/

theorem kOf_zero (old : Nat → Nat) : kOf old 0 = 1 := by
  simp [kOf]

theorem kOf_succ (old : Nat → Nat) (q : Nat) : kOf old (q + 1) = old q + 1 := by
  unfold kOf
  rw [if_neg (Nat.succ_ne_zero q)]
  simp

theorem dvBelow_succ (g : Char → List Nat) (s : List Char) (q : Nat) :
    dvBelow g s (q + 1) = dv g s q := rfl

theorem inIdx_of_mem {g : Char → List Nat} {c : Char} {x : Nat} (h : x ∈ g c) :
    inIdx g c = true := by
  unfold inIdx
  cases hgc : g c
  · rw [hgc] at h
    cases h
  · simp

theorem lt_length_of_getElem? {l : List Char} {x : Nat} {c : Char}
    (h : l[x]? = some c) : x < l.length := by
  by_contra hx
  rw [List.getElem?_eq_none (by omega)] at h
  cases h

theorem outerLoop_diag (s : List Char) (g : Char → List Nat)
    (hS : ∀ c j, j ∈ g c → s[j]? = some c)
    (hP : ∀ c, g c = [] ∨ g c = positionsOf s c)
    (hSort : ∀ c, List.Pairwise (· < ·) (g c)) :
    ∀ (k p : Nat) (j2len : Nat → Nat) (d B : Nat),
      s.length - p = k →
      p ≤ s.length →
      d + B ≤ p →
      (∀ q, q < p → dv g s q ≤ B) →
      (∀ j, j2len j ≤ dv g s j) →
      (∀ j, j2len j ≤ dvBelow g s p) →
      (∀ q, q + 1 = p → j2len q = dv g s q) →
      ∃ d2 B2,
        outerLoop g 0 s.length (s.enum.drop p) j2len d d B = ⟨d2, d2, B2⟩
        ∧ d2 + B2 ≤ s.length := by
  intro k
  induction k with
  | zero =>
    intro p j2len d B hk hp hdB _ _ _ _
    have hdrop : s.enum.drop p = [] :=
      List.drop_eq_nil_of_le (by rw [List.enum_length]; omega)
    rw [hdrop, outerLoop]
    exact ⟨d, B, rfl, by omega⟩
  | succ k ih =>
    intro p j2len d B hk hp hdB hdom hj3 hj5 hj4
    have hplt : p < s.length := by omega
    have hpe : p < s.enum.length := by rw [List.enum_length]; exact hplt
    have hdropp : s.enum.drop p = (p, s[p]) :: s.enum.drop (p + 1) := by
      rw [List.drop_eq_getElem_cons hpe]
      congr 1
      simp [List.getElem_enum]
    have hgetp : s[p]? = some s[p] := List.getElem?_eq_getElem hplt
    rw [hdropp, outerLoop]
    rcases hP s[p] with hempty | hfull
    · -- the character of this row is not in the index: the inner loop
      -- only replaces the dictionary with the empty one
      have hdvp : dv g s p = 0 := by
        rw [dv_get hgetp, if_neg]
        unfold inIdx
        rw [hempty]
        simp
      obtain ⟨d2, B2, hout, hle⟩ :=
        ih (p + 1) (fun _ => 0) d B (by omega) (by omega) (by omega)
          (fun q hq => by
            rcases Nat.lt_or_ge q p with h | h
            · exact hdom q h
            · have : q = p := by omega
              rw [this, hdvp]
              omega)
          (fun j => Nat.zero_le _)
          (fun j => Nat.zero_le _)
          (fun q hq => by
            have : q = p := by omega
            rw [this, hdvp])
      rw [hempty, innerLoop]
      exact ⟨d2, B2, hout, hle⟩
    · -- indexed row: run the inner-loop analysis
      have hmemp : p ∈ g s[p] := by
        rw [hfull]
        exact mem_positionsOf.mpr hgetp
      have hidxp : inIdx g s[p] = true := inIdx_of_mem hmemp
      have hdvp : dv g s p = dvBelow g s p + 1 := by
        rw [dv_get hgetp, if_pos hidxp]
      obtain ⟨d2, B2, nj2, heq, hB2ge, hd2, hdvB2, hn1, hn2, hn3, _⟩ :=
        innerLoop_diag s g j2len p (g s[p]) d B (fun _ => 0)
          (fun x hx => lt_length_of_getElem? (hS _ x hx))
          (hSort _)
          (fun x hx => by
            have hxc : s[x]? = some s[p] := hS _ x hx
            have hidx : inIdx g s[p] = true := inIdx_of_mem hx
            rw [dv_get hxc, if_pos hidx]
            cases x with
            | zero =>
              rw [kOf_zero]
              omega
            | succ q =>
              rw [kOf_succ, dvBelow_succ]
              have := hj3 q
              omega)
          (fun x hx => by
            rw [hdvp]
            cases x with
            | zero =>
              rw [kOf_zero]
              omega
            | succ q =>
              rw [kOf_succ]
              have := hj5 q
              omega)
          (fun x hx hxp => by
            have hxc : s[x]? = some s[p] := hS _ x hx
            have hidx : inIdx g s[p] = true := inIdx_of_mem hx
            have hbound : kOf j2len x ≤ dv g s x := by
              rw [dv_get hxc, if_pos hidx]
              cases x with
              | zero =>
                rw [kOf_zero]
                omega
              | succ q =>
                rw [kOf_succ, dvBelow_succ]
                have := hj3 q
                omega
            exact le_trans hbound (hdom x hxp))
          (fun _ => by
            rw [hdvp]
            cases p with
            | zero =>
              rw [kOf_zero]
              rfl
            | succ q =>
              rw [kOf_succ, dvBelow_succ]
              rw [hj4 q rfl])
          (Or.inl hmemp)
          (by omega)
          (fun j => Nat.zero_le _)
          (fun j => Nat.zero_le _)
      obtain ⟨d3, B3, hout, hle⟩ :=
        ih (p + 1) nj2 d2 B2 (by omega) (by omega) hd2
          (fun q hq => by
            rcases Nat.lt_or_ge q p with h | h
            · exact le_trans (hdom q h) hB2ge
            · have : q = p := by omega
              rw [this]
              exact hdvB2)
          hn2
          (fun j => hn1 j)
          (fun q hq => by
            have : q = p := by omega
            rw [this]
            exact hn3 hmemp)
      refine ⟨d3, B3, ?_, hle⟩
      rw [heq]
      exact hout

/-! ## The matcher on identical sequences -/

/-- On identical sequences the dictionary pass reports a diagonal best
match, and the two extension loops then grow it to the whole sequence:
`find_longest_match` returns the full diagonal. -/
theorem find_longest_match_self (s : List Char) (g : Char → List Nat)
    (hS : ∀ c j, j ∈ g c → s[j]? = some c)
    (hP : ∀ c, g c = [] ∨ g c = positionsOf s c)
    (hSort : ∀ c, List.Pairwise (· < ·) (g c)) :
    find_longest_match s s g 0 s.length 0 s.length = ⟨0, 0, s.length⟩ := by
  obtain ⟨d2, B2, hout, hle⟩ :=
    outerLoop_diag s g hS hP hSort s.length 0 (fun _ => 0) 0 0
      (by omega) (by omega) (by omega)
      (fun q hq => by omega)
      (fun j => Nat.zero_le _)
      (fun j => Nat.zero_le _)
      (fun q hq => by omega)
  have hslice : (s.enum.drop 0).take (s.length - 0) = s.enum.drop 0 := by
    rw [Nat.sub_zero]
    exact List.take_of_length_le (by rw [List.drop_zero, List.enum_length])
  have hback : extendBack s s 0 0 ((⟨d2, d2, B2⟩ : Match3).besti - 0) ⟨d2, d2, B2⟩
      = ⟨0, 0, d2 + B2⟩ := by
    rw [show (⟨d2, d2, B2⟩ : Match3).besti - 0 = d2 from rfl]
    exact extendBack_self s d2 d2 B2 (le_refl d2) hle
  simp only [find_longest_match, hslice, hout, hback]
  rw [show (⟨0, 0, d2 + B2⟩ : Match3).besti + (⟨0, 0, d2 + B2⟩ : Match3).bestsize
      = d2 + B2 from by simp]
  exact extendFwd_self s (s.length - (d2 + B2)) (d2 + B2) (by omega)

/-- The total matched-character count of identical sequences is the
whole length (with any positive fuel). -/
theorem matchesTotal_self (s : List Char) (g : Char → List Nat)
    (hS : ∀ c j, j ∈ g c → s[j]? = some c)
    (hP : ∀ c, g c = [] ∨ g c = positionsOf s c)
    (hSort : ∀ c, List.Pairwise (· < ·) (g c)) (fuel : Nat) :
    matchesTotal s s g (fuel + 1) 0 s.length 0 s.length = s.length := by
  rw [matchesTotal, find_longest_match_self s g hS hP hSort]
  by_cases hn : s.length = 0
  · simp [hn]
  · simp
    intro h
    subst h
    rfl

/-- `ratio()` of a sequence against itself is `1`, for any index
builder that is sound, all-or-nothing and ascending on it — the
autojunk builder in particular. -/
theorem ratioWith_self_of_good (mkb2j : List Char → Char → List Nat) (s : List Char)
    (hS : ∀ c j, j ∈ mkb2j s c → s[j]? = some c)
    (hP : ∀ c, mkb2j s c = [] ∨ mkb2j s c = positionsOf s c)
    (hSort : ∀ c, List.Pairwise (· < ·) (mkb2j s c)) :
    ratioWith mkb2j s s = 1 := by
  unfold ratioWith totalMatchedChars
  by_cases hn : s.length = 0
  · simp [hn]
  · rw [if_neg (by omega)]
    rw [matchesTotal_self s (mkb2j s) hS hP hSort (s.length + s.length)]
    have hne : (((s.length : ℚ)) + (s.length : ℚ)) ≠ 0 := by
      have : (0 : ℚ) < (s.length : ℚ) := by
        exact_mod_cast Nat.pos_of_ne_zero hn
      positivity
    rw [Rat.mkRat_eq_div]
    rw [div_eq_one_iff_eq (by push_cast at hne ⊢; exact_mod_cast hne)]
    push_cast
    ring

theorem sm_ratio_self (s : List Char) : sm_ratio s s = 1 :=
  ratioWith_self_of_good b2jAuto s (fun _ _ h => b2jAuto_sound h)
    (fun c => b2jAuto_cases s c) (fun c => b2jAuto_pairwise s c)

/-! ## Claim C4 — identity ratio -/

/-- C4: for every non-empty text `x`, setting both texts to `x` (under
either diacritics policy) makes `compare` return exactly `1`: the
compared cleaned sequences are identical, and `ratio` of a sequence
against itself is `1` (the extension loops of `find_longest_match`
grow a diagonal best match over the whole sequence, so even the
autojunk heuristic never lowers an identity comparison). -/
theorem compare_self_identity (x : List Char) (ig : Bool) (hx : x ≠ []) :
    compare (ignore_diacritics (set_hadith_texts hadithDiffer0 x x) ig) = Except.ok 1 := by
  have h : ¬ (x = [] ∨ x = []) := by simp [hx]
  simp [compare, ignore_diacritics, set_hadith_texts, hadithDiffer0, h, sm_ratio_self]
  exact hx

theorem compare_self_identity_witness :
    compare (ignore_diacritics (set_hadith_texts hadithDiffer0 ['a'] ['a']) true)
      = Except.ok 1 :=
  compare_self_identity ['a'] true (by decide)

/-! ## Whitespace collapsing: tokens and joins -/

theorem tokens_ws {c : Char} (h : pyIsSpace c = true) (cs : List Char) :
    tokens (c :: cs) = tokens cs := by
  rw [tokens.eq_def]
  simp [h]

theorem tokens_one {c : Char} (h : pyIsSpace c = false) : tokens [c] = [[c]] := by
  simp [tokens, h]

theorem tokens_break {c d : Char} (hc : pyIsSpace c = false) (hd : pyIsSpace d = true)
    (ds : List Char) : tokens (c :: d :: ds) = [c] :: tokens (d :: ds) := by
  simp [tokens, hc, hd]

theorem tokens_glue {c d : Char} (hc : pyIsSpace c = false) (hd : pyIsSpace d = false)
    (ds : List Char) :
    tokens (c :: d :: ds) =
      match tokens (d :: ds) with
      | [] => [[c]]
      | t :: ts => (c :: t) :: ts := by
  simp [tokens, hc, hd]

/-- A token starting at a non-whitespace head is the leading
non-whitespace run, and splitting continues after it. -/
theorem tokens_first :
    ∀ (cs : List Char) (d : Char), pyIsSpace d = false →
      tokens (d :: cs) =
        (d :: cs.takeWhile (fun c => !(pyIsSpace c)))
          :: tokens (cs.dropWhile (fun c => !(pyIsSpace c))) := by
  intro cs
  induction cs with
  | nil =>
    intro d hd
    simp [tokens_one hd, tokens, hd]
  | cons e es ih =>
    intro d hd
    cases he : pyIsSpace e
    · rw [tokens_glue hd he, ih e he]
      simp [List.takeWhile_cons, List.dropWhile_cons, he]
    · rw [tokens_break hd he]
      simp [List.takeWhile_cons, List.dropWhile_cons, he]

/-- Every token is non-empty and free of whitespace. -/
theorem tokens_props :
    ∀ (s : List Char), ∀ t ∈ tokens s, t ≠ [] ∧ ∀ c ∈ t, pyIsSpace c = false := by
  intro s
  induction s with
  | nil => simp [tokens]
  | cons c cs ih =>
    intro t ht
    cases hc : pyIsSpace c
    · cases cs with
      | nil =>
        rw [tokens_one hc] at ht
        simp only [List.mem_singleton] at ht
        subst ht
        refine ⟨by simp, ?_⟩
        intro x hx
        rcases List.mem_singleton.mp hx with rfl
        exact hc
      | cons d ds =>
        cases hd : pyIsSpace d
        · rw [tokens_glue hc hd] at ht
          cases htok : tokens (d :: ds) with
          | nil =>
            rw [htok] at ht
            simp only [List.mem_singleton] at ht
            subst ht
            refine ⟨by simp, ?_⟩
            intro x hx
            rcases List.mem_singleton.mp hx with rfl
            exact hc
          | cons t0 ts =>
            rw [htok] at ht
            simp only [List.mem_cons] at ht
            rcases ht with rfl | ht2
            · have h0 := ih t0 (by rw [htok]; exact List.mem_cons_self t0 ts)
              refine ⟨by simp, ?_⟩
              intro x hx
              rcases List.mem_cons.mp hx with rfl | hx2
              · exact hc
              · exact h0.2 x hx2
            · exact ih t (by rw [htok]; exact List.mem_cons_of_mem t0 ht2)
        · rw [tokens_break hc hd] at ht
          rcases List.mem_cons.mp ht with rfl | ht2
          · refine ⟨by simp, ?_⟩
            intro x hx
            rcases List.mem_singleton.mp hx with rfl
            exact hc
          · exact ih t ht2
    · rw [tokens_ws hc] at ht
      exact ih t ht

/-- Every character of a token is a character of the split string. -/
theorem tokens_subset :
    ∀ (s : List Char), ∀ t ∈ tokens s, ∀ c ∈ t, c ∈ s := by
  intro s
  induction s with
  | nil => simp [tokens]
  | cons c cs ih =>
    intro t ht x hx
    cases hc : pyIsSpace c
    · cases cs with
      | nil =>
        rw [tokens_one hc] at ht
        simp only [List.mem_singleton] at ht
        subst ht
        rcases List.mem_singleton.mp hx with rfl
        simp
      | cons d ds =>
        cases hd : pyIsSpace d
        · rw [tokens_glue hc hd] at ht
          cases htok : tokens (d :: ds) with
          | nil =>
            rw [htok] at ht
            simp only [List.mem_singleton] at ht
            subst ht
            rcases List.mem_singleton.mp hx with rfl
            simp
          | cons t0 ts =>
            rw [htok] at ht
            simp only [List.mem_cons] at ht
            rcases ht with rfl | ht2
            · rcases List.mem_cons.mp hx with rfl | hx2
              · simp
              · exact List.mem_cons_of_mem c
                  (ih t0 (by rw [htok]; exact List.mem_cons_self t0 ts) x hx2)
            · exact List.mem_cons_of_mem c
                (ih t (by rw [htok]; exact List.mem_cons_of_mem t0 ht2) x hx)
        · rw [tokens_break hc hd] at ht
          rcases List.mem_cons.mp ht with rfl | ht2
          · rcases List.mem_singleton.mp hx with rfl
            simp
          · exact List.mem_cons_of_mem c (ih t ht2 x hx)
    · rw [tokens_ws hc] at ht
      exact List.mem_cons_of_mem c (ih t ht x hx)

theorem takeWhile_append_stop {p : Char → Bool} :
    ∀ (t : List Char) (r : List Char), (∀ c ∈ t, p c = true) → p ' ' = false →
      (t ++ ' ' :: r).takeWhile p = t := by
  intro t
  induction t with
  | nil =>
    intro r _ hsp
    simp [List.takeWhile_cons, hsp]
  | cons a t ih =>
    intro r h hsp
    have ha : p a = true := h a (List.mem_cons_self a t)
    simp only [List.cons_append, List.takeWhile_cons, ha, if_true, ite_true]
    rw [ih r (fun c hc => h c (List.mem_cons_of_mem a hc)) hsp]

theorem dropWhile_append_stop {p : Char → Bool} :
    ∀ (t : List Char) (r : List Char), (∀ c ∈ t, p c = true) → p ' ' = false →
      (t ++ ' ' :: r).dropWhile p = ' ' :: r := by
  intro t
  induction t with
  | nil =>
    intro r _ hsp
    simp [List.dropWhile_cons, hsp]
  | cons a t ih =>
    intro r h hsp
    have ha : p a = true := h a (List.mem_cons_self a t)
    simp only [List.cons_append, List.dropWhile_cons, ha, if_true, ite_true]
    exact ih r (fun c hc => h c (List.mem_cons_of_mem a hc)) hsp

theorem pyIsSpace_space : pyIsSpace ' ' = true := by decide

/-- Splitting a whitespace-free non-empty piece followed by a space
yields that piece and then the tokens of the rest. -/
theorem tokens_piece :
    ∀ (t r : List Char), t ≠ [] → (∀ c ∈ t, pyIsSpace c = false) →
      tokens (t ++ ' ' :: r) = t :: tokens r := by
  intro t r ht hnws
  cases t with
  | nil => exact absurd rfl ht
  | cons a t' =>
    have ha : pyIsSpace a = false := hnws a (List.mem_cons_self a t')
    rw [List.cons_append, tokens_first (t' ++ ' ' :: r) a ha]
    have htw : (t' ++ ' ' :: r).takeWhile (fun c => !(pyIsSpace c)) = t' :=
      takeWhile_append_stop t' r
        (fun c hc => by simp [hnws c (List.mem_cons_of_mem a hc)])
        (by simp [pyIsSpace_space])
    have hdw : (t' ++ ' ' :: r).dropWhile (fun c => !(pyIsSpace c)) = ' ' :: r :=
      dropWhile_append_stop t' r
        (fun c hc => by simp [hnws c (List.mem_cons_of_mem a hc)])
        (by simp [pyIsSpace_space])
    rw [htw, hdw, tokens_ws pyIsSpace_space]

/-- Splitting a whitespace-free non-empty piece alone yields just it. -/
theorem tokens_whole (t : List Char) (ht : t ≠ []) (hnws : ∀ c ∈ t, pyIsSpace c = false) :
    tokens t = [t] := by
  cases t with
  | nil => exact absurd rfl ht
  | cons a t' =>
    have ha : pyIsSpace a = false := hnws a (List.mem_cons_self a t')
    rw [tokens_first t' a ha]
    have htw : t'.takeWhile (fun c => !(pyIsSpace c)) = t' :=
      List.takeWhile_eq_self_iff.mpr
        (fun c hc => by simp [hnws c (List.mem_cons_of_mem a hc)])
    have hdw : t'.dropWhile (fun c => !(pyIsSpace c)) = [] :=
      List.dropWhile_eq_nil_iff.mpr
        (fun c hc => by simp [hnws c (List.mem_cons_of_mem a hc)])
    rw [htw, hdw]
    rfl

theorem joinSp_cons_cons (t u : List Char) (L : List (List Char)) :
    joinSp (t :: u :: L) = t ++ ' ' :: joinSp (u :: L) := by
  rfl

/-- Splitting undoes joining for non-empty whitespace-free pieces. -/
theorem tokens_joinSp :
    ∀ (L : List (List Char)),
      (∀ t ∈ L, t ≠ [] ∧ ∀ c ∈ t, pyIsSpace c = false) →
      tokens (joinSp L) = L := by
  intro L
  induction L with
  | nil => intro _; simp [joinSp, tokens]
  | cons t L ih =>
    intro h
    have hts := h t (List.mem_cons_self t L)
    cases L with
    | nil =>
      show tokens t = [t]
      exact tokens_whole t hts.1 hts.2
    | cons u L2 =>
      rw [joinSp_cons_cons, tokens_piece t (joinSp (u :: L2)) hts.1 hts.2]
      rw [ih (fun x hx => h x (List.mem_cons_of_mem t hx))]

/-- `collapseWhitespace` is idempotent. -/
theorem collapseWhitespace_idem (s : List Char) :
    collapseWhitespace (collapseWhitespace s) = collapseWhitespace s := by
  unfold collapseWhitespace
  rw [tokens_joinSp (tokens s) (fun t ht => tokens_props s t ht)]

/-- Characters of the joined string: token characters and the space. -/
theorem mem_joinSp :
    ∀ (L : List (List Char)) (c : Char), c ∈ joinSp L → (∃ t ∈ L, c ∈ t) ∨ c = ' ' := by
  intro L
  induction L with
  | nil => simp [joinSp]
  | cons t L ih =>
    intro c hc
    cases L with
    | nil =>
      exact Or.inl ⟨t, List.mem_cons_self t [], hc⟩
    | cons u L2 =>
      rw [joinSp_cons_cons] at hc
      rcases List.mem_append.mp hc with h | h
      · exact Or.inl ⟨t, List.mem_cons_self t _, h⟩
      · rcases List.mem_cons.mp h with rfl | h2
        · exact Or.inr rfl
        · rcases ih c h2 with ⟨u2, hu2, hcu⟩ | hsp
          · exact Or.inl ⟨u2, List.mem_cons_of_mem t hu2, hcu⟩
          · exact Or.inr hsp

theorem joinSp_head :
    ∀ (L : List (List Char)) (t : List Char), (joinSp (t :: L)).head? = t.head? ∨ t = [] := by
  intro L t
  cases t with
  | nil => exact Or.inr rfl
  | cons a t' =>
    cases L with
    | nil => exact Or.inl rfl
    | cons u L2 => exact Or.inl (by rw [joinSp_cons_cons]; simp)

theorem joinSp_ne_nil (t : List Char) (L : List (List Char)) (ht : t ≠ []) :
    joinSp (t :: L) ≠ [] := by
  cases t with
  | nil => exact absurd rfl ht
  | cons a t' =>
    cases L with
    | nil => simp [joinSp]
    | cons u L2 => rw [joinSp_cons_cons]; simp

theorem joinSp_getLast :
    ∀ (L : List (List Char)) (t : List Char), (∀ x ∈ t :: L, x ≠ []) →
      ∃ u, u ∈ t :: L ∧ (joinSp (t :: L)).getLast? = u.getLast? := by
  intro L
  induction L with
  | nil =>
    intro t _
    exact ⟨t, List.mem_cons_self t [], rfl⟩
  | cons u L2 ih =>
    intro t hne
    obtain ⟨v, hv, hvl⟩ := ih u (fun x hx => hne x (List.mem_cons_of_mem t hx))
    refine ⟨v, List.mem_cons_of_mem t hv, ?_⟩
    rw [joinSp_cons_cons]
    rw [List.getLast?_append_of_ne_nil t
      (show (' ' :: joinSp (u :: L2) : List Char) ≠ [] by simp)]
    cases hj : joinSp (u :: L2) with
    | nil =>
      exact absurd hj
        (joinSp_ne_nil u L2 (hne u (List.mem_cons_of_mem t (List.mem_cons_self u L2))))
    | cons m ms =>
      rw [List.getLast?_cons_cons, ← hj]
      exact hvl

/-! ## Markup stripping: structure of the output -/

theorem stripGo_nil (b : Bool) : stripGo b [] = [] := by
  cases b <;> rfl

theorem stripGo_true_cons (c : Char) (cs : List Char) :
    stripGo true (c :: cs) = if c = '>' then stripGo false cs else stripGo true cs := rfl

theorem stripGo_false_cons (c : Char) (cs : List Char) :
    stripGo false (c :: cs) =
      if c = '<' ∧ isTagOpen cs = true then stripGo true cs
      else c :: stripGo false cs := rfl

/-- On input with no kept-tag adjacency, stripping is the identity. -/
theorem stripGo_eq_self :
    ∀ (s : List Char), List.Chain' (fun a b => ¬(a = '<' ∧ tagChar b = true)) s →
      stripGo false s = s := by
  intro s
  induction s with
  | nil =>
    intro _
    rfl
  | cons c cs ih =>
    intro h
    rw [stripGo_false_cons]
    have hcond : ¬(c = '<' ∧ isTagOpen cs = true) := by
      cases cs with
      | nil => simp [isTagOpen]
      | cons d ds =>
        rintro ⟨hc, hd⟩
        exact (List.chain'_cons.mp h).1 ⟨hc, by simpa [isTagOpen] using hd⟩
    rw [if_neg hcond, ih h.tail]

/-- Stripping removes characters and introduces none. -/
theorem stripGo_subset :
    ∀ (s : List Char) (b : Bool) (c : Char), c ∈ stripGo b s → c ∈ s := by
  intro s
  induction s with
  | nil =>
    intro b c hc
    rw [stripGo_nil] at hc
    cases hc
  | cons a cs ih =>
    intro b c hc
    cases b
    · rw [stripGo_false_cons] at hc
      by_cases hcond : a = '<' ∧ isTagOpen cs = true
      · rw [if_pos hcond] at hc
        exact List.mem_cons_of_mem a (ih true c hc)
      · rw [if_neg hcond] at hc
        rcases List.mem_cons.mp hc with rfl | h2
        · exact List.mem_cons_self c cs
        · exact List.mem_cons_of_mem a (ih false c h2)
    · rw [stripGo_true_cons] at hc
      by_cases ha : a = '>'
      · rw [if_pos ha] at hc
        exact List.mem_cons_of_mem a (ih false c hc)
      · rw [if_neg ha] at hc
        exact List.mem_cons_of_mem a (ih true c hc)

/-! ## Joining under an adjacency relation -/

theorem chain'_joinSp (R : Char → Char → Prop) :
    ∀ (L : List (List Char)),
      (∀ t ∈ L, t ≠ []) →
      (∀ t ∈ L, List.Chain' R t) →
      (∀ t ∈ L, ∀ x, t.getLast? = some x → R x ' ') →
      (∀ t ∈ L, ∀ y, t.head? = some y → R ' ' y) →
      List.Chain' R (joinSp L) := by
  intro L
  induction L with
  | nil =>
    intro _ _ _ _
    simp [joinSp]
  | cons t L ih =>
    intro hne hch hlast hhead
    cases L with
    | nil => exact hch t (List.mem_cons_self t [])
    | cons u L2 =>
      rw [joinSp_cons_cons, List.chain'_append]
      refine ⟨hch t (List.mem_cons_self t _), ?_, ?_⟩
      · rw [List.chain'_cons']
        constructor
        · intro y hy
          simp only [Option.mem_def] at hy
          rcases joinSp_head L2 u with hh | hu
          · rw [hh] at hy
            exact hhead u (List.mem_cons_of_mem t (List.mem_cons_self u L2)) y hy
          · exact absurd hu (hne u (List.mem_cons_of_mem t (List.mem_cons_self u L2)))
        · exact ih (fun x hx => hne x (List.mem_cons_of_mem t hx))
            (fun x hx => hch x (List.mem_cons_of_mem t hx))
            (fun x hx => hlast x (List.mem_cons_of_mem t hx))
            (fun x hx => hhead x (List.mem_cons_of_mem t hx))
      · intro x hx y hy
        simp only [List.head?_cons, Option.mem_def, Option.some.injEq] at hy
        subst hy
        simp only [Option.mem_def] at hx
        exact hlast t (List.mem_cons_self t _) x hx

theorem chain'_of_head_prop (R : Char → Char → Prop) (P : Char → Prop)
    (hPR : ∀ a b, P a → R a b) :
    ∀ (t : List Char), (∀ c ∈ t, P c) → List.Chain' R t := by
  intro t
  induction t with
  | nil =>
    intro _
    simp
  | cons a t ih =>
    intro h
    rw [List.chain'_cons']
    exact ⟨fun b _ => hPR a b (h a (List.mem_cons_self a t)),
           ih (fun c hc => h c (List.mem_cons_of_mem a hc))⟩

/-! ## Claim C9 — the CleanedText invariant -/

/-- Every character of the cleaned text avoids the punctuation set, and
the only whitespace character it can contain is the plain space. -/
theorem clean_chars (s : List Char) :
    ∀ c ∈ _clean_up s, (c ∉ punctuations) ∧ (pyIsSpace c = true → c = ' ') := by
  intro c hc
  unfold _clean_up collapseWhitespace at hc
  rcases mem_joinSp (tokens (stripMarkup (removePunctuation s))) c hc with ⟨t, ht, hct⟩ | rfl
  · have hprops := tokens_props _ t ht
    have hmem : c ∈ stripMarkup (removePunctuation s) := tokens_subset _ t ht c hct
    have hnp : c ∉ punctuations := by
      unfold stripMarkup at hmem
      have h := stripGo_subset _ false c hmem
      unfold removePunctuation at h
      rcases List.mem_map.mp h with ⟨x, hx, hfx⟩
      by_cases hxp : x ∈ punctuations
      · rw [if_pos hxp] at hfx
        subst hfx
        decide
      · rw [if_neg hxp] at hfx
        subst hfx
        exact hxp
    refine ⟨hnp, fun hsp => ?_⟩
    rw [hprops.2 c hct] at hsp
    cases hsp
  · exact ⟨by decide, fun _ => rfl⟩

/-- C9: the output of `_clean_up` satisfies the CleanedText invariant —
no character of the defined punctuation set, every whitespace character
is a single plain space, no two adjacent whitespace characters (so no
whitespace run longer than one space), and no leading or trailing
whitespace. -/
theorem clean_up_invariant (s : List Char) :
    (∀ c ∈ _clean_up s, c ∉ punctuations)
    ∧ (∀ c ∈ _clean_up s, pyIsSpace c = true → c = ' ')
    ∧ List.Chain' (fun a b => ¬(pyIsSpace a = true ∧ pyIsSpace b = true)) (_clean_up s)
    ∧ (∀ c, (_clean_up s).head? = some c → pyIsSpace c = false)
    ∧ (∀ c, (_clean_up s).getLast? = some c → pyIsSpace c = false) := by
  refine ⟨fun c hc => (clean_chars s c hc).1, fun c hc => (clean_chars s c hc).2, ?_, ?_, ?_⟩
  · unfold _clean_up collapseWhitespace
    apply chain'_joinSp
    · exact fun t ht => (tokens_props _ t ht).1
    · intro t ht
      refine chain'_of_head_prop _ (fun c => pyIsSpace c = false) ?_ t (tokens_props _ t ht).2
      rintro a b ha ⟨h1, _⟩
      rw [ha] at h1
      cases h1
    · rintro t ht x hx ⟨hws, _⟩
      rw [(tokens_props _ t ht).2 x
        (List.mem_of_mem_getLast? (by simp [Option.mem_def, hx]))] at hws
      cases hws
    · rintro t ht y hy ⟨_, hws2⟩
      rw [(tokens_props _ t ht).2 y
        (List.mem_of_mem_head? (by simp [Option.mem_def, hy]))] at hws2
      cases hws2
  · intro c hc
    unfold _clean_up collapseWhitespace at hc
    cases htok : tokens (stripMarkup (removePunctuation s)) with
    | nil =>
      rw [htok] at hc
      cases hc
    | cons t L =>
      rw [htok] at hc
      have hprops := tokens_props _ t (by rw [htok]; exact List.mem_cons_self t L)
      rcases joinSp_head L t with hh | hnil
      · rw [hh] at hc
        refine hprops.2 c ?_
        cases t with
        | nil => cases hc
        | cons a t' =>
          simp only [List.head?_cons, Option.some.injEq] at hc
          rw [← hc]
          exact List.mem_cons_self a t'
      · exact absurd hnil hprops.1
  · intro c hc
    unfold _clean_up collapseWhitespace at hc
    cases htok : tokens (stripMarkup (removePunctuation s)) with
    | nil =>
      rw [htok] at hc
      cases hc
    | cons t L =>
      rw [htok] at hc
      obtain ⟨u, hu, hul⟩ := joinSp_getLast L t
        (fun x hx => (tokens_props _ x (by rw [htok]; exact hx)).1)
      rw [hul] at hc
      exact (tokens_props _ u (by rw [htok]; exact hu)).2 c
        (List.mem_of_mem_getLast? (by simp [Option.mem_def, hc]))

theorem clean_up_invariant_witness : 'a' ∉ punctuations :=
  (clean_up_invariant [' ', 'a']).1 'a' (by decide)

/-! ## Claim C7 — cleaning is not idempotent in general -/

theorem removePunctuation_eq_self :
    ∀ (l : List Char), (∀ c ∈ l, c ∉ punctuations) → removePunctuation l = l := by
  intro l
  induction l with
  | nil => intro _; rfl
  | cons a l ih =>
    intro h
    unfold removePunctuation
    simp only [List.map_cons]
    rw [if_neg (h a (List.mem_cons_self a l))]
    have := ih (fun c hc => h c (List.mem_cons_of_mem a hc))
    unfold removePunctuation at this
    rw [this]

/-- C7 counterexample: cleaning is **not** idempotent. On
`"<<b>x>"` the first pass keeps the stray `<` as text (it does not
open a tag), strips the tag `<b>`, and yields `"<x>"` — in which the
kept `<` now stands directly before `x`, so the second pass reads
`"<x>"` as a tag and strips everything, yielding the empty string. -/
theorem clean_up_not_idempotent :
    _clean_up (_clean_up ['<', '<', 'b', '>', 'x', '>'])
      ≠ _clean_up ['<', '<', 'b', '>', 'x', '>'] := by
  decide

/-- C7 amended: cleaning is idempotent for every input whose cleaned
form never has a `<` directly before a character that could open a tag
(an ASCII letter or `/`) — in particular for well-formed-markup inputs
such as the witness — but not in general: a stray `<` kept as text can
become adjacent to following text and be read as a tag by a second
pass (see the counterexample). -/
theorem clean_up_idempotent_of_noTag (s : List Char)
    (h : List.Chain' (fun a b => ¬(a = '<' ∧ tagChar b = true)) (_clean_up s)) :
    _clean_up (_clean_up s) = _clean_up s := by
  have h1 : removePunctuation (_clean_up s) = _clean_up s :=
    removePunctuation_eq_self _ (fun c hc => (clean_chars s c hc).1)
  have h2 : stripMarkup (_clean_up s) = _clean_up s := by
    unfold stripMarkup
    exact stripGo_eq_self _ h
  have h3 : collapseWhitespace (_clean_up s) = _clean_up s := by
    conv_rhs => rw [show _clean_up s
      = collapseWhitespace (stripMarkup (removePunctuation s)) from rfl]
    rw [show _clean_up s
      = collapseWhitespace (stripMarkup (removePunctuation s)) from rfl]
    exact collapseWhitespace_idem _
  show collapseWhitespace (stripMarkup (removePunctuation (_clean_up s))) = _clean_up s
  rw [h1, h2, h3]

theorem clean_up_idempotent_of_noTag_witness :
    _clean_up (_clean_up ['a', '<', 'b', '>', 'c', '<', '/', 'b', '>', 'd'])
      = _clean_up ['a', '<', 'b', '>', 'c', '<', '/', 'b', '>', 'd'] :=
  clean_up_idempotent_of_noTag ['a', '<', 'b', '>', 'c', '<', '/', 'b', '>', 'd']
    (by
      have e : _clean_up ['a', '<', 'b', '>', 'c', '<', '/', 'b', '>', 'd']
          = ['a', 'c', 'd'] := by decide
      rw [e, List.chain'_cons, List.chain'_cons]
      refine ⟨by decide, by decide, by simp⟩)

end HadithDiff